import Mathlib

/-!
Verification development for the diffy repository (Go).

The Go sources are shallowly embedded:
* Go `string` values handled as sequences of symbols are embedded as `List Char`;
* Go `int` quantities that stay non-negative throughout (lengths, matrix cells of
  the integer Levenshtein engine) are embedded as `Nat`; link indices, which use
  the sentinel `-1`, are embedded as `Int`;
* Go `float32` costs are embedded as exact rationals `ℚ` (the real-number
  denotation of the arithmetic; the code only adds, compares and takes minima);
* Go panics (`panic("not reached")`) are embedded as `Option.none`;
* the DP-matrix fill loops of `diff.go`, which compute the matrix row by row,
  are embedded as structural row-by-row recursions so that every definition
  evaluates by kernel reduction.

`Diff_v1` (src/src/diffy/diff/diff.go) is textually identical to `Diff_v2`
except that it works on `string` with the binary byte cost and an `int` matrix;
both are embedded through one engine, generic over a linear ordered semiring.
-/

namespace Diffy

/-- Link kinds, from src/src/diffy/diff/alignment.go (`tLinkType` / `LinkType`). -/
inductive LinkType : Type where
  | Matching
  | Different
  | LeftOnly
  | RightOnly
deriving DecidableEq, Repr

/-- One step of an alignment, from src/src/diffy/diff/alignment.go (`tLink`).
A missing index is represented by `-1`, as in the Go code. -/
structure Link : Type where
  LinkType : LinkType
  LeftIndex : Int
  RightIndex : Int
deriving DecidableEq, Repr

/-- An alignment, from src/src/diffy/diff/alignment.go (`tAlignment`) as used by
`Diff_v1`/`Diff_v2` (field `Links`). -/
structure Alignment : Type where
  Links : List Link
deriving DecidableEq, Repr

/-- The `ComparableSequence` interface (src/README.md embedded sources):
`Length()` and `GetItemAt(int)`.  `GetDescription` is display-only and omitted.
Item comparison (`Comparable.Compare`) is passed separately as a function. -/
structure ComparableSequence (α : Type) : Type where
  Length : Nat
  GetItemAt : Nat → α

/-- `ComparableRune.Compare` (src/README.md): binary cost on runes. -/
def ComparableRuneCompare (c d : Char) : ℚ :=
  if c = d then 0 else 1

/-- `MakeComparableString` (src/README.md): a string as a sequence of runes.
Out-of-range access would panic in Go; the engine only indexes in range, and we
use a default element. -/
def MakeComparableString (s : List Char) : ComparableSequence Char :=
  ⟨s.length, fun i => s.getD i 'A'⟩

section Engine

variable {R : Type} [LinearOrderedSemiring R]
variable {α : Type}

/-- `min_int_3` / `min_float32_3` (src/src/diffy/diff/diff.go): minimum of
three values, computed exactly as in the Go source. -/
def min_3 (a b c : R) : R :=
  let m0 := a
  let m1 := if b < m0 then b else m0
  if c < m1 then c else m1

/-- Go `min_int_3` is `min_3` at `ℕ`. -/
def min_int_3 (a b c : ℕ) : ℕ := min_3 a b c

/-- Go `min_float32_3` is `min_3` at `ℚ`. -/
def min_float32_3 (a b c : ℚ) : ℚ := min_3 a b c

/-- Row `i+1` of the edit-distance matrix given row `i` (the inner `j` loop of
the fill in `Diff_v1`/`Diff_v2`/`LevenshteinDistance_v2`):
cell `0` is `i+1`, cell `j+1` is
`min_3 (prev j + cost i j) (prev (j+1) + 1) (cur j + 1)`. -/
def matrixRowSucc (Compare : α → α → R) (s t : ComparableSequence α)
    (prev : ℕ → R) (i : ℕ) : ℕ → R
  | 0 => ((i + 1 : ℕ) : R)
  | j + 1 =>
      min_3 (prev j + Compare (s.GetItemAt i) (t.GetItemAt j))
        (prev (j + 1) + 1)
        (matrixRowSucc Compare s t prev i j + 1)

/-- The edit-distance matrix of `Diff_v1`/`Diff_v2` (and of
`LevenshteinDistance_v2`), built row by row exactly as the fill loops do:
row `0` is `j ↦ j`, and each following row is `matrixRowSucc` of the row
before it. -/
def matrix (Compare : α → α → R) (s t : ComparableSequence α) : ℕ → ℕ → R
  | 0 => fun j => (j : R)
  | i + 1 => matrixRowSucc Compare s t (matrix Compare s t i) i

@[simp] theorem matrix_zero (Compare : α → α → R) (s t : ComparableSequence α)
    (j : ℕ) : matrix Compare s t 0 j = (j : R) := rfl

@[simp] theorem matrix_succ_zero (Compare : α → α → R) (s t : ComparableSequence α)
    (i : ℕ) : matrix Compare s t (i + 1) 0 = ((i + 1 : ℕ) : R) := rfl

@[simp] theorem matrix_zero_right (Compare : α → α → R) (s t : ComparableSequence α)
    (i : ℕ) : matrix Compare s t i 0 = (i : R) := by
  cases i <;> simp

theorem matrix_succ_succ (Compare : α → α → R) (s t : ComparableSequence α)
    (i j : ℕ) :
    matrix Compare s t (i + 1) (j + 1) =
      min_3 (matrix Compare s t i j + Compare (s.GetItemAt i) (t.GetItemAt j))
        (matrix Compare s t i (j + 1) + 1)
        (matrix Compare s t (i + 1) j + 1) := rfl

/-- Backtrace along the first matrix row (`i = 0` in the extraction loop of
`Diff_v1`/`Diff_v2`): each step emits a `RightOnly` link at right index `j-1`
and moves to `(0, j-1)`.  Links are produced in the order the Go loop appends
them (from `(m,n)` towards `(0,0)`); `Diff_v2` reverses them at the end. -/
def backtraceRow0 : ℕ → Option (List Link)
  | 0 => some []
  | j + 1 =>
      (backtraceRow0 j).map (fun links => Link.mk .RightOnly (-1) (j : Int) :: links)

/-- Backtrace along matrix row `i+1` given the backtrace from every cell of row
`i` (the interior of the extraction loop of `Diff_v1`/`Diff_v2`).  At `(i+1,0)`
a `LeftOnly` link is emitted; at an interior cell `(i+1, j+1)` the three branch
conditions `aIsOK`, `bIsOK`, `cIsOK` are tested in the order of the Go code,
and the Go `panic("not reached")` branch is `none`. -/
def backtraceRowSucc (Compare : α → α → R) (s t : ComparableSequence α)
    (prev : ℕ → Option (List Link)) (i : ℕ) : ℕ → Option (List Link)
  | 0 =>
      (prev 0).map (fun links => Link.mk .LeftOnly (i : Int) (-1) :: links)
  | j + 1 =>
      let cost := Compare (s.GetItemAt i) (t.GetItemAt j)
      let a := matrix Compare s t i j + cost
      let b := matrix Compare s t i (j + 1) + 1
      let c := matrix Compare s t (i + 1) j + 1
      if a ≤ b ∧ a ≤ c then
        if cost = 0 then
          (prev j).map (fun links => Link.mk .Matching (i : Int) (j : Int) :: links)
        else
          (prev j).map (fun links => Link.mk .Different (i : Int) (j : Int) :: links)
      else if b ≤ a ∧ b ≤ c then
        (prev (j + 1)).map (fun links => Link.mk .LeftOnly (i : Int) (-1) :: links)
      else if c ≤ a ∧ c ≤ b then
        (backtraceRowSucc Compare s t prev i j).map
          (fun links => Link.mk .RightOnly (-1) (j : Int) :: links)
      else
        none

/-- The alignment-extraction loop of `Diff_v1`/`Diff_v2`, from cell `(i, j)`
down to `(0, 0)`, producing links in the order the Go loop appends them
(descending indices).  `none` models the `panic("not reached")` branch. -/
def backtrace (Compare : α → α → R) (s t : ComparableSequence α) :
    ℕ → ℕ → Option (List Link)
  | 0 => backtraceRow0
  | i + 1 => backtraceRowSucc Compare s t (backtrace Compare s t i) i

@[simp] theorem backtrace_zero_zero (Compare : α → α → R)
    (s t : ComparableSequence α) : backtrace Compare s t 0 0 = some [] := rfl

theorem backtrace_zero_succ (Compare : α → α → R) (s t : ComparableSequence α)
    (j : ℕ) :
    backtrace Compare s t 0 (j + 1) =
      (backtrace Compare s t 0 j).map
        (fun links => Link.mk .RightOnly (-1) (j : Int) :: links) := rfl

theorem backtrace_succ_zero (Compare : α → α → R) (s t : ComparableSequence α)
    (i : ℕ) :
    backtrace Compare s t (i + 1) 0 =
      (backtrace Compare s t i 0).map
        (fun links => Link.mk .LeftOnly (i : Int) (-1) :: links) := rfl

theorem backtrace_succ_succ (Compare : α → α → R) (s t : ComparableSequence α)
    (i j : ℕ) :
    backtrace Compare s t (i + 1) (j + 1) =
      if matrix Compare s t i j + Compare (s.GetItemAt i) (t.GetItemAt j) ≤
            matrix Compare s t i (j + 1) + 1 ∧
          matrix Compare s t i j + Compare (s.GetItemAt i) (t.GetItemAt j) ≤
            matrix Compare s t (i + 1) j + 1 then
        if Compare (s.GetItemAt i) (t.GetItemAt j) = 0 then
          (backtrace Compare s t i j).map
            (fun links => Link.mk .Matching (i : Int) (j : Int) :: links)
        else
          (backtrace Compare s t i j).map
            (fun links => Link.mk .Different (i : Int) (j : Int) :: links)
      else if matrix Compare s t i (j + 1) + 1 ≤
            matrix Compare s t i j + Compare (s.GetItemAt i) (t.GetItemAt j) ∧
          matrix Compare s t i (j + 1) + 1 ≤ matrix Compare s t (i + 1) j + 1 then
        (backtrace Compare s t i (j + 1)).map
          (fun links => Link.mk .LeftOnly (i : Int) (-1) :: links)
      else if matrix Compare s t (i + 1) j + 1 ≤
            matrix Compare s t i j + Compare (s.GetItemAt i) (t.GetItemAt j) ∧
          matrix Compare s t (i + 1) j + 1 ≤ matrix Compare s t i (j + 1) + 1 then
        (backtrace Compare s t (i + 1) j).map
          (fun links => Link.mk .RightOnly (-1) (j : Int) :: links)
      else none := rfl

/-- `Diff_v2` (src/src/diffy/diff/diff.go, lines 539-630), generic over the
cost value type (`float32` in Go, `ℚ` in this embedding; `Diff_v1` is the same
code at `int`).  Returns the edit distance `matrix m n` and the reversed
backtrace; `none` models the `panic("not reached")` branch. -/
def Diff_v2 (Compare : α → α → R) (s t : ComparableSequence α) :
    Option (R × Alignment) :=
  (backtrace Compare s t s.Length t.Length).map
    (fun links => (matrix Compare s t s.Length t.Length, Alignment.mk links.reverse))

end Engine

/-- `Diff_v1` (src/src/diffy/diff/diff.go, lines 422-519): textually the same
algorithm as `Diff_v2` with an `int` matrix and the binary character cost
`if s[i] == t[j] then 0 else 1`. -/
def Diff_v1 (s t : List Char) : Option (ℕ × Alignment) :=
  Diff_v2 (R := ℕ) (fun c d => if c = d then 0 else 1)
    (MakeComparableString s) (MakeComparableString t)

/-- `LevenshteinDistance_v1` (src/src/diffy/diff/diff.go, lines 51-87): the
naive recursive implementation, splitting off the final character of each
string. -/
def LevenshteinDistance_v1 (sc td : List Char) : ℕ :=
  if sc.length = 0 then td.length
  else if td.length = 0 then sc.length
  else
    let s := sc.dropLast
    let c := sc.getLastD 'A'
    let t := td.dropLast
    let d := td.getLastD 'A'
    let cost := if c ≠ d then 1 else 0
    min_int_3 (LevenshteinDistance_v1 s t + cost)
      (LevenshteinDistance_v1 s td + 1)
      (LevenshteinDistance_v1 sc t + 1)
termination_by (sc.length, td.length)
decreasing_by
  all_goals simp_wf
  · exact Prod.Lex.left _ _ (by omega)
  · exact Prod.Lex.left _ _ (by omega)
  · exact Prod.Lex.right _ (by omega)

/-- `LevenshteinDistance_v2` (src/src/diffy/diff/diff.go, lines 276-311): the
full-matrix dynamic-programming implementation; its fill loop is the same
integer matrix as `Diff_v1`'s, and returns `matrix[m][n]`. -/
def LevenshteinDistance_v2 (s t : List Char) : ℕ :=
  matrix (R := ℕ) (fun c d => if c = d then 0 else 1)
    (MakeComparableString s) (MakeComparableString t) s.length t.length

/-- The inner `j` loop of `LevenshteinDistance_v4` (src/src/diffy/diff/diff.go,
lines 363-403): build the cells `1..n` of the next row from the previous row
`pj :: prest` (walked alongside the remaining right-hand characters) and the
cell just written, `cj`. -/
def v4NextRowAux (c : Char) : List Char → List ℕ → ℕ → List ℕ
  | d :: ds, pj :: prest, cj =>
      let cost := if c = d then 0 else 1
      let v := min_int_3 (pj + cost) (prest.headD 0 + 1) (cj + 1)
      v :: v4NextRowAux c ds prest v
  | _, _, _ => []

/-- One iteration of the outer `i` loop of `LevenshteinDistance_v4`: write the
first cell `i+1` of the new row, then run the inner loop. -/
def v4NextRow (c : Char) (t : List Char) (prev : List ℕ) (i1 : ℕ) : List ℕ :=
  i1 :: v4NextRowAux c t prev i1

/-- The outer `i` loop of `LevenshteinDistance_v4`: the Go code keeps only two
rows of the matrix in a modularly-indexed buffer; this is embedded by passing
the previous row explicitly. -/
def v4Rows (t : List Char) : List Char → List ℕ → ℕ → List ℕ
  | [], prev, _ => prev
  | c :: cs, prev, i1 => v4Rows t cs (v4NextRow c t prev i1) (i1 + 1)

/-- `LevenshteinDistance_v4` (src/src/diffy/diff/diff.go, lines 363-403): the
two-row rolling implementation; the result is cell `n` of the final row. -/
def LevenshteinDistance_v4 (s t : List Char) : ℕ :=
  (v4Rows t s (List.range (t.length + 1)) 1).getD t.length 0

/-- `rotateLeft` (src/src/diffy/diff/text-line.go, lines 145-150) on `uint32`
values, embedded on naturals below `2^32` with the left shift truncated
modulo `2^32`. -/
def rotateLeft (val : ℕ) (shiftCount : ℕ) : ℕ :=
  let bitCount := 32
  let shiftLeftCount := shiftCount % bitCount
  let shiftRightCount := bitCount - shiftLeftCount
  ((val <<< shiftLeftCount) % 2 ^ 32) ||| (val >>> shiftRightCount)

/-- Insert a value into an ascending-sorted list. -/
def insertSorted (x : ℕ) : List ℕ → List ℕ
  | [] => [x]
  | y :: ys => if x ≤ y then x :: y :: ys else y :: insertSorted x ys

/-- Ascending sort.  `DiffHash.Init` calls `sort.Sort` on the `uint32` slice;
on natural numbers the ascending-sorted rearrangement is unique, so any
sorting algorithm denotes the same function; insertion sort is used here. -/
def sortHashes : List ℕ → List ℕ
  | [] => []
  | x :: xs => insertSorted x (sortHashes xs)

/-- The fingerprint sketch type (src/src/diffy/diff/text-line.go, `DiffHash`):
a sorted list of 32-bit hashes, embedded as naturals below `2^32`. -/
structure DiffHash : Type where
  hashes : List ℕ
deriving DecidableEq, Repr

/-- `DiffHash.Init` (src/src/diffy/diff/text-line.go, lines 79-110): one hash
per rune (its code point) plus, when there are more than 3 runes, one hash per
4-rune window (XOR of the rotated code points); the result is sorted. -/
def DiffHash.Init (s : List Char) : DiffHash :=
  let runes := s
  let runesLen := runes.length
  let charHashes := runes.map (fun r => r.toNat)
  let hashes :=
    if runesLen > 3 then
      charHashes ++ (List.range (runesLen - 3)).map (fun i =>
        let r0 := (runes.getD (i + 0) 'A').toNat
        let r1 := (runes.getD (i + 1) 'A').toNat
        let r2 := (runes.getD (i + 2) 'A').toNat
        let r3 := (runes.getD (i + 3) 'A').toNat
        rotateLeft r0 24 ^^^ rotateLeft r1 16 ^^^ rotateLeft r2 8 ^^^ r3)
    else charHashes
  ⟨sortHashes hashes⟩

/-- Inner loop of the merge walk of `DiffHash.Similarity` with the left list
fixed at `h1 :: t1`; `rec` is the walk for the left tail `t1`. -/
def matchCountGo (h1 : ℕ) (rec : List ℕ → ℕ) : List ℕ → ℕ
  | [] => 0
  | h2 :: t2 =>
      if h1 = h2 then rec t2 + 1
      else if h1 < h2 then rec (h2 :: t2)
      else matchCountGo h1 rec t2

/-- The merge walk of `DiffHash.Similarity` (src/src/diffy/diff/text-line.go,
lines 124-134): step both lists while counting positions where the current
values agree, else advance the side with the smaller value.  The walk ends as
soon as either list is exhausted. -/
def matchCount : List ℕ → List ℕ → ℕ
  | [], _ => 0
  | h1 :: t1, l2 => matchCountGo h1 (matchCount t1) l2

/-- `DiffHash.Similarity` (src/src/diffy/diff/text-line.go, lines 114-141). -/
def DiffHash.Similarity (diffHash diffHash2 : DiffHash) : ℚ :=
  let hashLen := diffHash.hashes.length
  let hashLen2 := diffHash2.hashes.length
  if hashLen = 0 ∧ hashLen2 = 0 then 1
  else if hashLen = 0 ∨ hashLen2 = 0 then 0
  else
    let mc := matchCount diffHash.hashes diffHash2.hashes
    let denominator := if hashLen2 > hashLen then hashLen2 else hashLen
    (mc : ℚ) / (denominator : ℚ)

/-- `TextLine` (src/src/diffy/diff/text-line.go, lines 168-171). -/
structure TextLine : Type where
  Text : List Char
  diffHash : DiffHash
deriving DecidableEq, Repr

/-- `NewTextLine` (src/src/diffy/diff/text-line.go, lines 175-179). -/
def NewTextLine (text : List Char) : TextLine :=
  ⟨text, DiffHash.Init text⟩

/-- `TextLine.Similarity` (src/src/diffy/diff/text-line.go, lines 183-187):
sketch similarity with values below 0.6 clamped to 0. -/
def TextLine.Similarity (line1 line2 : TextLine) : ℚ :=
  let similarityFactor := line1.diffHash.Similarity line2.diffHash
  if similarityFactor < 6 / 10 then 0 else similarityFactor

/-- `TextLine.Compare` (src/src/diffy/diff/text-line.go, lines 191-193). -/
def TextLine.Compare (line1 line2 : TextLine) : ℚ :=
  1 - line1.Similarity line2

/-- `TextLine.Stringify` (src/src/diffy/diff/text-line.go, lines 197-208):
truncate to `maxWidth` runes, then overwrite runes at positions from
`maxWidth - 3` on (skipping position 0, Go guard `i > 0`) with a dot.  With a
natural-number `maxWidth` the Go loop start `maxWidth - 3` is truncated
subtraction, which agrees with the Go `int` loop since negative start indices
only add iterations that the `i > 0` guard skips. -/
def TextLine.Stringify (line : TextLine) (maxWidth : ℕ) : List Char :=
  let runes := line.Text
  let runes := if runes.length > maxWidth then runes.take maxWidth else runes
  runes.mapIdx (fun i r => if maxWidth - 3 ≤ i ∧ 0 < i then '.' else r)

/-- `ComparableLines` (src/src/diffy/diff/text-line.go, lines 215-235): a list
of text lines as a `ComparableSequence`. -/
def ComparableLines (lines : List TextLine) : ComparableSequence TextLine :=
  ⟨lines.length, fun i => lines.getD i (NewTextLine [])⟩

/-- Modelled from the spec: `Alignment.RealignUsingThreshold` is called by
`GenerateHtmlDiffPage` (src/unnamed/part_000, line 166) but its body is not
among the provided sources.  This is the scan of spec section 4.4: walk the
links in order keeping a pending buffer of RightOnly links; a Different link
whose items' cost strictly exceeds the threshold becomes a LeftOnly link
emitted now plus a RightOnly link pushed into the pending buffer; any other
link first flushes the pending buffer and is then kept unchanged; at the end
the remaining buffer is flushed. -/
def realignAux (Compare : α → α → ℚ) (left right : ComparableSequence α)
    (threshold : ℚ) : List Link → List Link → List Link
  | [], pending => pending
  | link :: rest, pending =>
      if link.LinkType = .Different ∧
          threshold < Compare (left.GetItemAt link.LeftIndex.toNat)
            (right.GetItemAt link.RightIndex.toNat) then
        Link.mk .LeftOnly link.LeftIndex (-1) ::
          realignAux Compare left right threshold rest
            (pending ++ [Link.mk .RightOnly (-1) link.RightIndex])
      else
        pending ++ link :: realignAux Compare left right threshold rest []

/-- Modelled from the spec: entry point of the realigner, starting with an
empty pending buffer (spec section 4.4). -/
def Alignment.RealignUsingThreshold (alignment : Alignment)
    (Compare : α → α → ℚ) (left right : ComparableSequence α)
    (threshold : ℚ) : Alignment :=
  ⟨realignAux Compare left right threshold alignment.Links []⟩

/-- The left indices present in a link list, in link order (a `-1` left index
means absent, per alignment.go). -/
def presentLeftIndices (links : List Link) : List Int :=
  (links.map Link.LeftIndex).filter (fun x => decide (0 ≤ x))

/-- The right indices present in a link list, in link order. -/
def presentRightIndices (links : List Link) : List Int :=
  (links.map Link.RightIndex).filter (fun x => decide (0 ≤ x))

/-- The `matchingCount` accumulated by `tAlignment.dump`
(src/src/diffy/diff/alignment.go, lines 60-82): the number of Matching links. -/
def matchingCount (alignment : Alignment) : ℕ :=
  alignment.Links.countP (fun link => decide (link.LinkType = .Matching))

/-- The `nonMatchingCount` computed by `tAlignment.dump`
(src/src/diffy/diff/alignment.go, line 93): total links minus Matching links. -/
def nonMatchingCount (alignment : Alignment) : ℕ :=
  alignment.Links.length - matchingCount alignment

/-- The dynamic-programming recurrence exactly as the spec states it (spec
section 4.3, steps 1-3): base cases `M[0][j] = j` and `M[i][0] = i`, step
`M[i+1][j+1] = min(M[i][j] + cost, M[i][j+1] + 1, M[i+1][j] + 1)` with the
mathematical minimum.  Used to check the distance of `Diff_v2` against the
spec's wording. -/
def specMatrix (Compare : α → α → ℚ) (s t : ComparableSequence α) : ℕ → ℕ → ℚ
  | 0, j => (j : ℚ)
  | i + 1, 0 => ((i + 1 : ℕ) : ℚ)
  | i + 1, j + 1 =>
      min (specMatrix Compare s t i j + Compare (s.GetItemAt i) (t.GetItemAt j))
        (min (specMatrix Compare s t i (j + 1) + 1)
          (specMatrix Compare s t (i + 1) j + 1))
termination_by i j => (i, j)

section OrderLemmas

variable {R : Type} [LinearOrderedSemiring R]

theorem ite_lt_eq_min (a b : R) : (if b < a then b else a) = min a b := by
  rcases lt_or_le b a with h | h
  · rw [if_pos h, min_eq_right h.le]
  · rw [if_neg (not_lt.2 h), min_eq_left h]

theorem min_3_eq (a b c : R) : min_3 a b c = min (min a b) c := by
  simp only [min_3]
  rw [ite_lt_eq_min a b, ite_lt_eq_min (min a b) c]

theorem min_3_eq_first {a b c : R} (h1 : a ≤ b) (h2 : a ≤ c) :
    min_3 a b c = a := by
  rw [min_3_eq, min_eq_left h1, min_eq_left h2]

theorem min_3_eq_second {a b c : R} (h1 : b ≤ a) (h2 : b ≤ c) :
    min_3 a b c = b := by
  rw [min_3_eq, min_eq_right h1, min_eq_left h2]

theorem min_3_eq_third {a b c : R} (h1 : c ≤ a) (h2 : c ≤ b) :
    min_3 a b c = c := by
  rw [min_3_eq, min_eq_right (le_min h1 h2)]

theorem min_3_nonneg {a b c : R} (h1 : 0 ≤ a) (h2 : 0 ≤ b) (h3 : 0 ≤ c) :
    0 ≤ min_3 a b c := by
  rw [min_3_eq]
  exact le_min (le_min h1 h2) h3

/-- Of any three values of a linear order, at least one of the three branch
conditions of the backtrace holds; this is why the `panic("not reached")`
branch is dead code. -/
theorem tiebreak_total (a b c : R) (hA : ¬(a ≤ b ∧ a ≤ c))
    (hB : ¬(b ≤ a ∧ b ≤ c)) : c ≤ a ∧ c ≤ b := by
  push_neg at hA hB
  rcases le_total a b with h1 | h1
  · rcases le_total a c with h2 | h2
    · exact absurd h2 (by simpa using hA h1)
    · exact ⟨h2, h2.trans h1⟩
  · rcases le_total b c with h2 | h2
    · exact absurd h2 (by simpa using hB h1)
    · exact ⟨h2.trans h1, h2⟩

end OrderLemmas

section PresentIndices

theorem presentLeftIndices_nil : presentLeftIndices [] = [] := rfl

theorem presentRightIndices_nil : presentRightIndices [] = [] := rfl

theorem presentLeftIndices_cons (lk : Link) (links : List Link) :
    presentLeftIndices (lk :: links) =
      if 0 ≤ lk.LeftIndex then lk.LeftIndex :: presentLeftIndices links
      else presentLeftIndices links := by
  simp only [presentLeftIndices, List.map_cons, List.filter_cons]
  split_ifs with h h' h' <;> simp_all

theorem presentRightIndices_cons (lk : Link) (links : List Link) :
    presentRightIndices (lk :: links) =
      if 0 ≤ lk.RightIndex then lk.RightIndex :: presentRightIndices links
      else presentRightIndices links := by
  simp only [presentRightIndices, List.map_cons, List.filter_cons]
  split_ifs with h h' h' <;> simp_all

theorem range_reverse_map_succ (n : ℕ) :
    ((List.range (n + 1)).reverse).map Int.ofNat =
      (n : Int) :: ((List.range n).reverse).map Int.ofNat := by
  simp [List.range_succ]

end PresentIndices

section BacktraceSpec

variable {R : Type} [LinearOrderedSemiring R] {α : Type}

/-- The backtrace loop of `Diff_v1`/`Diff_v2` never reaches the panic branch,
and from cell `(i, j)` it emits exactly the left indices `i-1, …, 0` and right
indices `j-1, …, 0` (in the descending order the loop appends links), every
link carrying at least one present index. -/
theorem backtrace_spec (Compare : α → α → R) (s t : ComparableSequence α) :
    ∀ N i j, i + j ≤ N →
      ∃ links, backtrace Compare s t i j = some links ∧
        presentLeftIndices links = ((List.range i).reverse).map Int.ofNat ∧
        presentRightIndices links = ((List.range j).reverse).map Int.ofNat ∧
        ∀ lk ∈ links, 0 ≤ lk.LeftIndex ∨ 0 ≤ lk.RightIndex := by
  intro N
  induction N with
  | zero =>
      intro i j h
      obtain ⟨rfl, rfl⟩ : i = 0 ∧ j = 0 := by omega
      exact ⟨[], rfl, by simp [presentLeftIndices], by simp [presentRightIndices],
        by simp⟩
  | succ N ih =>
      intro i j h
      cases i with
      | zero =>
          cases j with
          | zero =>
              exact ⟨[], rfl, by simp [presentLeftIndices],
                by simp [presentRightIndices], by simp⟩
          | succ j =>
              obtain ⟨links, hbt, hl, hr, hp⟩ := ih 0 j (by omega)
              refine ⟨Link.mk .RightOnly (-1) (j : Int) :: links, ?_, ?_, ?_, ?_⟩
              · rw [backtrace_zero_succ, hbt]; rfl
              · rw [presentLeftIndices_cons]
                simp only [if_neg (by norm_num : ¬(0 : Int) ≤ -1)]
                simpa using hl
              · rw [presentRightIndices_cons]
                simp only [if_pos (by positivity : (0 : Int) ≤ (j : Int))]
                rw [hr, range_reverse_map_succ]
              · intro lk hlk
                rcases List.mem_cons.1 hlk with rfl | hlk
                · right; positivity
                · exact hp _ hlk
      | succ i =>
          cases j with
          | zero =>
              obtain ⟨links, hbt, hl, hr, hp⟩ := ih i 0 (by omega)
              refine ⟨Link.mk .LeftOnly (i : Int) (-1) :: links, ?_, ?_, ?_, ?_⟩
              · rw [backtrace_succ_zero, hbt]; rfl
              · rw [presentLeftIndices_cons]
                simp only [if_pos (by positivity : (0 : Int) ≤ (i : Int))]
                rw [hl, range_reverse_map_succ]
              · rw [presentRightIndices_cons]
                simp only [if_neg (by norm_num : ¬(0 : Int) ≤ -1)]
                simpa using hr
              · intro lk hlk
                rcases List.mem_cons.1 hlk with rfl | hlk
                · left; positivity
                · exact hp _ hlk
          | succ j =>
              by_cases hA :
                  matrix Compare s t i j + Compare (s.GetItemAt i) (t.GetItemAt j) ≤
                      matrix Compare s t i (j + 1) + 1 ∧
                    matrix Compare s t i j + Compare (s.GetItemAt i) (t.GetItemAt j) ≤
                      matrix Compare s t (i + 1) j + 1
              · obtain ⟨links, hbt, hl, hr, hp⟩ := ih i j (by omega)
                by_cases h0 : Compare (s.GetItemAt i) (t.GetItemAt j) = 0
                · refine ⟨Link.mk .Matching (i : Int) (j : Int) :: links, ?_, ?_, ?_, ?_⟩
                  · rw [backtrace_succ_succ, if_pos hA, if_pos h0, hbt]; rfl
                  · rw [presentLeftIndices_cons]
                    simp only [if_pos (by positivity : (0 : Int) ≤ (i : Int))]
                    rw [hl, range_reverse_map_succ]
                  · rw [presentRightIndices_cons]
                    simp only [if_pos (by positivity : (0 : Int) ≤ (j : Int))]
                    rw [hr, range_reverse_map_succ]
                  · intro lk hlk
                    rcases List.mem_cons.1 hlk with rfl | hlk
                    · left; positivity
                    · exact hp _ hlk
                · refine ⟨Link.mk .Different (i : Int) (j : Int) :: links, ?_, ?_, ?_, ?_⟩
                  · rw [backtrace_succ_succ, if_pos hA, if_neg h0, hbt]; rfl
                  · rw [presentLeftIndices_cons]
                    simp only [if_pos (by positivity : (0 : Int) ≤ (i : Int))]
                    rw [hl, range_reverse_map_succ]
                  · rw [presentRightIndices_cons]
                    simp only [if_pos (by positivity : (0 : Int) ≤ (j : Int))]
                    rw [hr, range_reverse_map_succ]
                  · intro lk hlk
                    rcases List.mem_cons.1 hlk with rfl | hlk
                    · left; positivity
                    · exact hp _ hlk
              · by_cases hB :
                    matrix Compare s t i (j + 1) + 1 ≤
                        matrix Compare s t i j +
                          Compare (s.GetItemAt i) (t.GetItemAt j) ∧
                      matrix Compare s t i (j + 1) + 1 ≤ matrix Compare s t (i + 1) j + 1
                · obtain ⟨links, hbt, hl, hr, hp⟩ := ih i (j + 1) (by omega)
                  refine ⟨Link.mk .LeftOnly (i : Int) (-1) :: links, ?_, ?_, ?_, ?_⟩
                  · rw [backtrace_succ_succ, if_neg hA, if_pos hB, hbt]; rfl
                  · rw [presentLeftIndices_cons]
                    simp only [if_pos (by positivity : (0 : Int) ≤ (i : Int))]
                    rw [hl, range_reverse_map_succ]
                  · rw [presentRightIndices_cons]
                    simp only [if_neg (by norm_num : ¬(0 : Int) ≤ -1)]
                    exact hr
                  · intro lk hlk
                    rcases List.mem_cons.1 hlk with rfl | hlk
                    · left; positivity
                    · exact hp _ hlk
                · have hC := tiebreak_total _ _ _ hA hB
                  obtain ⟨links, hbt, hl, hr, hp⟩ := ih (i + 1) j (by omega)
                  refine ⟨Link.mk .RightOnly (-1) (j : Int) :: links, ?_, ?_, ?_, ?_⟩
                  · rw [backtrace_succ_succ, if_neg hA, if_neg hB, if_pos hC, hbt]; rfl
                  · rw [presentLeftIndices_cons]
                    simp only [if_neg (by norm_num : ¬(0 : Int) ≤ -1)]
                    exact hl
                  · rw [presentRightIndices_cons]
                    simp only [if_pos (by positivity : (0 : Int) ≤ (j : Int))]
                    rw [hr, range_reverse_map_succ]
                  · intro lk hlk
                    rcases List.mem_cons.1 hlk with rfl | hlk
                    · right; positivity
                    · exact hp _ hlk

end BacktraceSpec

section MatrixLemmas

variable {R : Type} [LinearOrderedSemiring R] {α : Type}

/-- The Go fill (with its `min_float32_3` helper) computes exactly the
spec's recurrence with the mathematical minimum. -/
theorem matrix_eq_specMatrix (Compare : α → α → ℚ) (s t : ComparableSequence α) :
    ∀ N i j, i + j ≤ N → matrix Compare s t i j = specMatrix Compare s t i j := by
  intro N
  induction N with
  | zero =>
      intro i j h
      obtain ⟨rfl, rfl⟩ : i = 0 ∧ j = 0 := by omega
      simp [specMatrix]
  | succ N ih =>
      intro i j h
      cases i with
      | zero => simp [specMatrix]
      | succ i =>
          cases j with
          | zero => simp [specMatrix]
          | succ j =>
              rw [matrix_succ_succ, min_3_eq, ih i j (by omega),
                ih i (j + 1) (by omega), ih (i + 1) j (by omega)]
              conv_rhs => rw [specMatrix]
              rw [min_assoc]

/-- Every cell of the matrix is non-negative when every cost is. -/
theorem matrix_nonneg (Compare : α → α → R) (s t : ComparableSequence α)
    (hc : ∀ a b, 0 ≤ Compare a b) :
    ∀ N i j, i + j ≤ N → 0 ≤ matrix Compare s t i j := by
  intro N
  induction N with
  | zero =>
      intro i j h
      obtain ⟨rfl, rfl⟩ : i = 0 ∧ j = 0 := by omega
      simp
  | succ N ih =>
      intro i j h
      cases i with
      | zero => simp
      | succ i =>
          cases j with
          | zero => simp; positivity
          | succ j =>
              rw [matrix_succ_succ]
              exact min_3_nonneg
                (add_nonneg (ih i j (by omega)) (hc _ _))
                (add_nonneg (ih i (j + 1) (by omega)) zero_le_one)
                (add_nonneg (ih (i + 1) j (by omega)) zero_le_one)

/-- When each item costs `0` against itself, every diagonal cell of the
self-diff matrix is `0`. -/
theorem matrix_diag_eq_zero (Compare : α → α → R) (s : ComparableSequence α)
    (hc : ∀ a b, 0 ≤ Compare a b)
    (hd : ∀ k, Compare (s.GetItemAt k) (s.GetItemAt k) = 0) :
    ∀ i, matrix Compare s s i i = 0 := by
  intro i
  induction i with
  | zero => simp
  | succ i ihd =>
      rw [matrix_succ_succ, hd i, ihd, add_zero]
      refine min_3_eq_first ?_ ?_ <;>
        exact add_nonneg (matrix_nonneg Compare s s hc _ _ _ le_rfl) zero_le_one

/-- The self-diff backtrace from a diagonal cell consists of Matching links
only. -/
theorem backtrace_diag (Compare : α → α → R) (s : ComparableSequence α)
    (hc : ∀ a b, 0 ≤ Compare a b)
    (hd : ∀ k, Compare (s.GetItemAt k) (s.GetItemAt k) = 0) :
    ∀ i, ∃ links, backtrace Compare s s i i = some links ∧
      ∀ lk ∈ links, lk.LinkType = .Matching := by
  intro i
  induction i with
  | zero => exact ⟨[], rfl, by simp⟩
  | succ i ihd =>
      obtain ⟨links, hbt, hm⟩ := ihd
      have hA : matrix Compare s s i i + Compare (s.GetItemAt i) (s.GetItemAt i) ≤
            matrix Compare s s i (i + 1) + 1 ∧
          matrix Compare s s i i + Compare (s.GetItemAt i) (s.GetItemAt i) ≤
            matrix Compare s s (i + 1) i + 1 := by
        rw [hd i, matrix_diag_eq_zero Compare s hc hd i, add_zero]
        constructor <;>
          exact add_nonneg (matrix_nonneg Compare s s hc _ _ _ le_rfl) zero_le_one
      refine ⟨Link.mk .Matching (i : Int) (i : Int) :: links, ?_, ?_⟩
      · rw [backtrace_succ_succ, if_pos hA, if_pos (hd i), hbt]; rfl
      · intro lk hlk
        rcases List.mem_cons.1 hlk with rfl | hlk
        · rfl
        · exact hm _ hlk

end MatrixLemmas

section SimilarityLemmas

theorem matchCountGo_le_left (h1 : ℕ) (rec : List ℕ → ℕ) (bound : ℕ)
    (hrec : ∀ l2, rec l2 ≤ bound) :
    ∀ l2, matchCountGo h1 rec l2 ≤ bound + 1 := by
  intro l2
  induction l2 with
  | nil => simp [matchCountGo]
  | cons h2 t2 ihg =>
      simp only [matchCountGo]
      split_ifs with he hlt
      · exact Nat.add_le_add_right (hrec t2) 1
      · exact (hrec (h2 :: t2)).trans (Nat.le_succ bound)
      · exact ihg

theorem matchCountGo_le_right (h1 : ℕ) (rec : List ℕ → ℕ)
    (hrec : ∀ l2, rec l2 ≤ l2.length) :
    ∀ l2, matchCountGo h1 rec l2 ≤ l2.length := by
  intro l2
  induction l2 with
  | nil => simp [matchCountGo]
  | cons h2 t2 ihg =>
      simp only [matchCountGo, List.length_cons]
      split_ifs with he hlt
      · exact Nat.add_le_add_right (hrec t2) 1
      · exact (hrec (h2 :: t2)).trans_eq (by simp)
      · exact ihg.trans (Nat.le_succ _)

/-- The merge walk never counts more matches than the left list has values. -/
theorem matchCount_le_left : ∀ l1 l2 : List ℕ, matchCount l1 l2 ≤ l1.length := by
  intro l1
  induction l1 with
  | nil => intro l2; simp [matchCount]
  | cons h1 t1 ihm =>
      intro l2
      simpa using matchCountGo_le_left h1 (matchCount t1) t1.length ihm l2

/-- The merge walk never counts more matches than the right list has values. -/
theorem matchCount_le_right : ∀ l1 l2 : List ℕ, matchCount l1 l2 ≤ l2.length := by
  intro l1
  induction l1 with
  | nil => intro l2; simp [matchCount]
  | cons h1 t1 ihm =>
      intro l2
      exact matchCountGo_le_right h1 (matchCount t1) ihm l2

/-- The merge walk of a list against itself matches every value. -/
theorem matchCount_self : ∀ l : List ℕ, matchCount l l = l.length := by
  intro l
  induction l with
  | nil => simp [matchCount]
  | cons h1 t1 ihm => simp [matchCount, matchCountGo, ihm]

/-- A sketch is 100% similar to itself. -/
theorem Similarity_self (d : DiffHash) : d.Similarity d = 1 := by
  rcases eq_or_ne d.hashes.length 0 with h | h
  · simp [DiffHash.Similarity, h]
  · simp only [DiffHash.Similarity, matchCount_self]
    rw [if_neg (by tauto), if_neg (by tauto), if_neg (lt_irrefl _)]
    exact div_self (by exact_mod_cast h)

theorem Similarity_nonneg (d1 d2 : DiffHash) : 0 ≤ d1.Similarity d2 := by
  simp only [DiffHash.Similarity]
  split_ifs with h1 h2 h3
  · norm_num
  · norm_num
  · positivity
  · positivity

theorem Similarity_le_one (d1 d2 : DiffHash) : d1.Similarity d2 ≤ 1 := by
  simp only [DiffHash.Similarity]
  split_ifs with h1 h2 h3
  · norm_num
  · norm_num
  · have hne := not_or.1 h2
    rw [div_le_one (by exact_mod_cast Nat.pos_of_ne_zero hne.2)]
    exact_mod_cast matchCount_le_right _ _
  · have hne := not_or.1 h2
    rw [div_le_one (by exact_mod_cast Nat.pos_of_ne_zero hne.1)]
    exact_mod_cast matchCount_le_left _ _

/-- A text line costs `0` against itself. -/
theorem TextLine_Compare_self (l : TextLine) : l.Compare l = 0 := by
  simp only [TextLine.Compare, TextLine.Similarity, Similarity_self]
  rw [if_neg (by norm_num)]
  norm_num

theorem TextLine_Similarity_le_one (l1 l2 : TextLine) : l1.Similarity l2 ≤ 1 := by
  simp only [TextLine.Similarity]
  split_ifs with h
  · norm_num
  · exact Similarity_le_one _ _

/-- Text-line costs are non-negative. -/
theorem TextLine_Compare_nonneg (l1 l2 : TextLine) : 0 ≤ l1.Compare l2 := by
  simp only [TextLine.Compare, sub_nonneg]
  exact TextLine_Similarity_le_one l1 l2

theorem ComparableRuneCompare_self (c : Char) : ComparableRuneCompare c c = 0 := by
  simp [ComparableRuneCompare]

theorem ComparableRuneCompare_nonneg (c d : Char) :
    0 ≤ ComparableRuneCompare c d := by
  simp only [ComparableRuneCompare]
  split_ifs <;> norm_num

end SimilarityLemmas

section ReverseLemmas

theorem presentLeftIndices_reverse (links : List Link) :
    presentLeftIndices links.reverse = (presentLeftIndices links).reverse := by
  simp [presentLeftIndices, List.map_reverse, List.filter_reverse]

theorem presentRightIndices_reverse (links : List Link) :
    presentRightIndices links.reverse = (presentRightIndices links).reverse := by
  simp [presentRightIndices, List.map_reverse, List.filter_reverse]

end ReverseLemmas

section SelfDiff

variable {R : Type} [LinearOrderedSemiring R] {α : Type}

/-- Diffing any sequence against itself yields distance `0` and an alignment
made of Matching links only, provided every cost is non-negative and every
item costs `0` against itself. -/
theorem Diff_v2_self (Compare : α → α → R) (s : ComparableSequence α)
    (hc : ∀ a b, 0 ≤ Compare a b)
    (hd : ∀ k, Compare (s.GetItemAt k) (s.GetItemAt k) = 0) :
    ∃ al, Diff_v2 Compare s s = some (0, al) ∧
      ∀ lk ∈ al.Links, lk.LinkType = .Matching := by
  obtain ⟨links, hbt, hm⟩ := backtrace_diag Compare s hc hd s.Length
  refine ⟨⟨links.reverse⟩, ?_, ?_⟩
  · rw [Diff_v2, hbt, matrix_diag_eq_zero Compare s hc hd s.Length]
    rfl
  · intro lk hlk
    exact hm _ (List.mem_reverse.1 hlk)

end SelfDiff

/-- C1: for every pair of sequences `s` (length `m`) and `t` (length `n`),
`Diff_v2` returns a distance equal to `M[m][n]` of the dynamic-programming
recurrence with base cases `M[0][j] = j`, `M[i][0] = i` and step
`M[i+1][j+1] = min(M[i][j] + cost(s[i], t[j]), M[i][j+1] + 1, M[i+1][j] + 1)`,
where `cost` is the items' `Compare` function (`specMatrix` states that
recurrence in the spec's words). -/
theorem C1_distance_is_dp_recurrence {α : Type} (Compare : α → α → ℚ)
    (s t : ComparableSequence α) :
    ∃ al, Diff_v2 Compare s t =
      some (specMatrix Compare s t s.Length t.Length, al) := by
  obtain ⟨links, hbt, -, -, -⟩ :=
    backtrace_spec Compare s t (s.Length + t.Length) s.Length t.Length le_rfl
  refine ⟨⟨links.reverse⟩, ?_⟩
  rw [Diff_v2, hbt,
    matrix_eq_specMatrix Compare s t (s.Length + t.Length) s.Length t.Length le_rfl]
  rfl

/-- C2: the alignment returned by `Diff_v2` always exists (no panic), every
link has at least one present (non-negative) index, and the present left
(resp. right) indices, read in link order, are exactly `0, …, m-1`
(resp. `0, …, n-1`), each occurring once. -/
theorem C2_alignment_invariants {α : Type} (Compare : α → α → ℚ)
    (s t : ComparableSequence α) :
    ∃ d al, Diff_v2 Compare s t = some (d, al) ∧
      (∀ lk ∈ al.Links, 0 ≤ lk.LeftIndex ∨ 0 ≤ lk.RightIndex) ∧
      presentLeftIndices al.Links = (List.range s.Length).map Int.ofNat ∧
      presentRightIndices al.Links = (List.range t.Length).map Int.ofNat := by
  obtain ⟨links, hbt, hl, hr, hp⟩ :=
    backtrace_spec Compare s t (s.Length + t.Length) s.Length t.Length le_rfl
  refine ⟨_, ⟨links.reverse⟩, by rw [Diff_v2, hbt]; rfl, ?_, ?_, ?_⟩
  · intro lk hlk
    exact hp _ (List.mem_reverse.1 hlk)
  · rw [presentLeftIndices_reverse, hl, List.map_reverse, List.reverse_reverse]
  · rw [presentRightIndices_reverse, hr, List.map_reverse, List.reverse_reverse]

/-- C5: for every sequence of the provided item kinds — runes via
`ComparableString` or text lines via `ComparableLines` — diffing the sequence
against itself yields distance `0` and an alignment made solely of Matching
links. -/
theorem C5_self_diff_all_matching :
    (∀ s : List Char, ∃ al,
        Diff_v2 ComparableRuneCompare (MakeComparableString s)
          (MakeComparableString s) = some (0, al) ∧
        ∀ lk ∈ al.Links, lk.LinkType = .Matching) ∧
    (∀ lines : List TextLine, ∃ al,
        Diff_v2 TextLine.Compare (ComparableLines lines)
          (ComparableLines lines) = some (0, al) ∧
        ∀ lk ∈ al.Links, lk.LinkType = .Matching) := by
  constructor
  · intro s
    exact Diff_v2_self ComparableRuneCompare (MakeComparableString s)
      (fun a b => ComparableRuneCompare_nonneg a b)
      (fun k => ComparableRuneCompare_self _)
  · intro lines
    exact Diff_v2_self TextLine.Compare (ComparableLines lines)
      (fun a b => TextLine_Compare_nonneg a b)
      (fun k => TextLine_Compare_self _)

/-- C8: the `panic("not reached")` branch in the backtrace of `Diff_v2` (and of
`Diff_v1`) is unreachable: over the exact (finite, non-NaN) cost model the
engine always returns a result, for every cost function and every input. -/
theorem C8_panic_branch_unreachable :
    (∀ (α : Type) (Compare : α → α → ℚ) (s t : ComparableSequence α),
        (Diff_v2 Compare s t).isSome = true) ∧
    (∀ s t : List Char, (Diff_v1 s t).isSome = true) := by
  constructor
  · intro α Compare s t
    obtain ⟨links, hbt, -, -, -⟩ :=
      backtrace_spec Compare s t (s.Length + t.Length) s.Length t.Length le_rfl
    rw [Diff_v2, hbt]
    rfl
  · intro s t
    obtain ⟨links, hbt, -, -, -⟩ :=
      backtrace_spec (R := ℕ) (fun c d => if c = d then 0 else 1)
        (MakeComparableString s) (MakeComparableString t)
        ((MakeComparableString s).Length + (MakeComparableString t).Length)
        (MakeComparableString s).Length (MakeComparableString t).Length le_rfl
    rw [Diff_v1, Diff_v2, hbt]
    rfl

/-- C3: at every interior backtrace cell, `Diff_v2` prefers the diagonal move
when its value `a = M[i-1][j-1] + cost` is `≤` both alternatives, emitting
Matching exactly when the cost is `0` and Different otherwise; otherwise it
prefers the vertical move (LeftOnly) when `b ≤ c'`; otherwise it takes the
horizontal move (RightOnly).  In particular, diffing `"ab"` against `"ac"`
with the binary rune cost yields distance `1` and the alignment
`[Matching(0,0), Different(1,1)]`. -/
theorem C3_tiebreak_order_and_example :
    (∀ (α : Type) (Compare : α → α → ℚ) (s t : ComparableSequence α) (i j : ℕ),
      (matrix Compare s t i j + Compare (s.GetItemAt i) (t.GetItemAt j) ≤
          matrix Compare s t i (j + 1) + 1 →
        matrix Compare s t i j + Compare (s.GetItemAt i) (t.GetItemAt j) ≤
          matrix Compare s t (i + 1) j + 1 →
        backtrace Compare s t (i + 1) (j + 1) =
          (backtrace Compare s t i j).map (fun links =>
            (if Compare (s.GetItemAt i) (t.GetItemAt j) = 0 then
                Link.mk .Matching (i : Int) (j : Int)
              else Link.mk .Different (i : Int) (j : Int)) :: links)) ∧
      (¬(matrix Compare s t i j + Compare (s.GetItemAt i) (t.GetItemAt j) ≤
            matrix Compare s t i (j + 1) + 1 ∧
          matrix Compare s t i j + Compare (s.GetItemAt i) (t.GetItemAt j) ≤
            matrix Compare s t (i + 1) j + 1) →
        matrix Compare s t i (j + 1) + 1 ≤ matrix Compare s t (i + 1) j + 1 →
        backtrace Compare s t (i + 1) (j + 1) =
          (backtrace Compare s t i (j + 1)).map
            (fun links => Link.mk .LeftOnly (i : Int) (-1) :: links)) ∧
      (¬(matrix Compare s t i j + Compare (s.GetItemAt i) (t.GetItemAt j) ≤
            matrix Compare s t i (j + 1) + 1 ∧
          matrix Compare s t i j + Compare (s.GetItemAt i) (t.GetItemAt j) ≤
            matrix Compare s t (i + 1) j + 1) →
        ¬(matrix Compare s t i (j + 1) + 1 ≤ matrix Compare s t (i + 1) j + 1) →
        backtrace Compare s t (i + 1) (j + 1) =
          (backtrace Compare s t (i + 1) j).map
            (fun links => Link.mk .RightOnly (-1) (j : Int) :: links))) ∧
    Diff_v2 ComparableRuneCompare (MakeComparableString "ab".toList)
        (MakeComparableString "ac".toList) =
      some (1, Alignment.mk [Link.mk .Matching 0 0, Link.mk .Different 1 1]) := by
  constructor
  · intro α Compare s t i j
    refine ⟨?_, ?_, ?_⟩
    · intro h1 h2
      rw [backtrace_succ_succ, if_pos ⟨h1, h2⟩]
      by_cases h0 : Compare (s.GetItemAt i) (t.GetItemAt j) = 0
      · rw [if_pos h0]
        simp only [if_pos h0]
      · rw [if_neg h0]
        simp only [if_neg h0]
    · intro hA hbc
      have hba : matrix Compare s t i (j + 1) + 1 ≤
          matrix Compare s t i j + Compare (s.GetItemAt i) (t.GetItemAt j) := by
        by_contra hcon
        push_neg at hcon
        exact hA ⟨hcon.le, hcon.le.trans hbc⟩
      rw [backtrace_succ_succ, if_neg hA, if_pos ⟨hba, hbc⟩]
    · intro hA hnbc
      have hB : ¬(matrix Compare s t i (j + 1) + 1 ≤
            matrix Compare s t i j + Compare (s.GetItemAt i) (t.GetItemAt j) ∧
          matrix Compare s t i (j + 1) + 1 ≤ matrix Compare s t (i + 1) j + 1) :=
        fun h => hnbc h.2
      have hC := tiebreak_total _ _ _ hA hB
      rw [backtrace_succ_succ, if_neg hA, if_neg hB, if_pos hC]
  · with_unfolding_all decide

/-- Witness for C3: at the concrete pair "ab"/"ac" and interior cell (2,2),
the diagonal-preference clause applies (discharging its two inequality
hypotheses by computation) and yields the Different(1,1) link. -/
theorem C3_tiebreak_order_and_example_witness :
    backtrace ComparableRuneCompare (MakeComparableString "ab".toList)
        (MakeComparableString "ac".toList) (1 + 1) (1 + 1) =
      (backtrace ComparableRuneCompare (MakeComparableString "ab".toList)
          (MakeComparableString "ac".toList) 1 1).map (fun links =>
        (if ComparableRuneCompare
              ((MakeComparableString "ab".toList).GetItemAt 1)
              ((MakeComparableString "ac".toList).GetItemAt 1) = 0 then
            Link.mk .Matching (1 : Int) (1 : Int)
          else Link.mk .Different (1 : Int) (1 : Int)) :: links) :=
  (C3_tiebreak_order_and_example.1 Char ComparableRuneCompare
      (MakeComparableString "ab".toList) (MakeComparableString "ac".toList) 1 1).1
    (by with_unfolding_all decide) (by with_unfolding_all decide)

section LevenshteinEquivalence

theorem take_succ_concat {s : List Char} {i : ℕ} (h : i < s.length) :
    s.take (i + 1) = s.take i ++ [s.getD i 'A'] := by
  rw [List.take_succ, List.getElem?_eq_getElem h, List.getD_eq_getElem s 'A' h]
  rfl

/-- The naive recursion of `LevenshteinDistance_v1` on prefixes agrees with the
integer DP matrix cell by cell. -/
theorem LevenshteinDistance_v1_eq_matrix (s t : List Char) :
    ∀ N i j, i + j ≤ N → i ≤ s.length → j ≤ t.length →
      LevenshteinDistance_v1 (s.take i) (t.take j) =
        matrix (R := ℕ) (fun c d => if c = d then 0 else 1)
          (MakeComparableString s) (MakeComparableString t) i j := by
  intro N
  induction N with
  | zero =>
      intro i j h hi hj
      obtain ⟨rfl, rfl⟩ : i = 0 ∧ j = 0 := by omega
      rw [LevenshteinDistance_v1]
      simp
  | succ N ih =>
      intro i j h hi hj
      cases i with
      | zero =>
          rw [LevenshteinDistance_v1]
          simp [List.length_take, min_eq_left hj]
      | succ i =>
          have hsi : i < s.length := by omega
          have hlen_s : (s.take (i + 1)).length = i + 1 := by
            rw [List.length_take]
            exact min_eq_left hi
          cases j with
          | zero =>
              rw [LevenshteinDistance_v1]
              simp [hlen_s]
          | succ j =>
              have htj : j < t.length := by omega
              have hlen_t : (t.take (j + 1)).length = j + 1 := by
                rw [List.length_take]
                exact min_eq_left hj
              have hdrop_s : (s.take (i + 1)).dropLast = s.take i := by
                rw [take_succ_concat hsi, List.dropLast_concat]
              have hlast_s : (s.take (i + 1)).getLastD 'A' = s.getD i 'A' := by
                rw [take_succ_concat hsi, List.getLastD_concat]
              have hdrop_t : (t.take (j + 1)).dropLast = t.take j := by
                rw [take_succ_concat htj, List.dropLast_concat]
              have hlast_t : (t.take (j + 1)).getLastD 'A' = t.getD j 'A' := by
                rw [take_succ_concat htj, List.getLastD_concat]
              rw [LevenshteinDistance_v1]
              simp only [hlen_s, hlen_t, hdrop_s, hdrop_t, hlast_s, hlast_t, ite_not]
              rw [if_neg (Nat.succ_ne_zero i), if_neg (Nat.succ_ne_zero j)]
              rw [ih i j (by omega) (by omega) (by omega),
                ih i (j + 1) (by omega) (by omega) hj,
                ih (i + 1) j (by omega) hi (by omega),
                matrix_succ_succ]
              simp only [min_int_3, MakeComparableString]

theorem LevenshteinDistance_v1_eq_v2 (s t : List Char) :
    LevenshteinDistance_v1 s t = LevenshteinDistance_v2 s t := by
  have h := LevenshteinDistance_v1_eq_matrix s t (s.length + t.length)
    s.length t.length le_rfl le_rfl le_rfl
  rw [List.take_length, List.take_length] at h
  exact h

end LevenshteinEquivalence

section V4Equivalence

/-- Correctness of the inner loop of `LevenshteinDistance_v4`: walking the tail
of the previous row (as a list) reproduces the matrix row recurrence. -/
theorem v4NextRowAux_eq (c : Char) (t : List Char) (P Rf : ℕ → ℕ)
    (hstep : ∀ k, k < t.length →
      Rf (k + 1) = min_int_3 (P k + if c = t.getD k 'A' then 0 else 1)
        (P (k + 1) + 1) (Rf k + 1)) :
    ∀ len k, k + len = t.length →
      v4NextRowAux c (t.drop k) ((List.range' k (len + 1)).map P) (Rf k) =
        (List.range' (k + 1) len).map Rf := by
  intro len
  induction len with
  | zero =>
      intro k hk
      have hk' : k = t.length := by omega
      subst hk'
      rw [List.drop_length]
      simp [v4NextRowAux]
  | succ len ihl =>
      intro k hk
      have hklt : k < t.length := by omega
      have hrest : (List.range' (k + 1) (len + 1)).map P =
          P (k + 1) :: (List.range' (k + 1 + 1) len).map P := by
        rw [List.range'_succ, List.map_cons]
      rw [List.drop_eq_getElem_cons hklt, List.range'_succ, List.map_cons]
      simp only [v4NextRowAux]
      rw [hrest]
      simp only [List.headD_cons]
      rw [← List.getD_eq_getElem t 'A' hklt, ← hstep k hklt, ← hrest,
        ihl (k + 1) (by omega), List.range'_succ, List.map_cons]

/-- One outer-loop iteration of `LevenshteinDistance_v4` maps row `i` of the
matrix to row `i+1`. -/
theorem v4NextRow_matrix (s t : List Char) (i : ℕ) :
    v4NextRow (s.getD i 'A') t
        ((List.range' 0 (t.length + 1)).map
          (matrix (R := ℕ) (fun c d => if c = d then 0 else 1)
            (MakeComparableString s) (MakeComparableString t) i)) (i + 1) =
      (List.range' 0 (t.length + 1)).map
        (matrix (R := ℕ) (fun c d => if c = d then 0 else 1)
          (MakeComparableString s) (MakeComparableString t) (i + 1)) := by
  have hstep : ∀ k, k < t.length →
      matrix (R := ℕ) (fun c d => if c = d then 0 else 1)
          (MakeComparableString s) (MakeComparableString t) (i + 1) (k + 1) =
        min_int_3
          (matrix (R := ℕ) (fun c d => if c = d then 0 else 1)
              (MakeComparableString s) (MakeComparableString t) i k +
            if s.getD i 'A' = t.getD k 'A' then 0 else 1)
          (matrix (R := ℕ) (fun c d => if c = d then 0 else 1)
              (MakeComparableString s) (MakeComparableString t) i (k + 1) + 1)
          (matrix (R := ℕ) (fun c d => if c = d then 0 else 1)
              (MakeComparableString s) (MakeComparableString t) (i + 1) k + 1) := by
    intro k hk
    rw [matrix_succ_succ]
    rfl
  have h := v4NextRowAux_eq (s.getD i 'A') t
    (matrix (R := ℕ) (fun c d => if c = d then 0 else 1)
      (MakeComparableString s) (MakeComparableString t) i)
    (matrix (R := ℕ) (fun c d => if c = d then 0 else 1)
      (MakeComparableString s) (MakeComparableString t) (i + 1))
    hstep t.length 0 (by omega)
  rw [List.drop_zero] at h
  rw [v4NextRow]
  have h0 : matrix (R := ℕ) (fun c d => if c = d then 0 else 1)
      (MakeComparableString s) (MakeComparableString t) (i + 1) 0 = i + 1 := by
    simp
  rw [← h0, h, List.range'_succ, List.map_cons]
  simp [h0]

/-- The outer loop of `LevenshteinDistance_v4` carries row `k` of the matrix to
row `m`. -/
theorem v4Rows_matrix (s t : List Char) :
    ∀ d k, k + d = s.length →
      v4Rows t (s.drop k)
          ((List.range' 0 (t.length + 1)).map
            (matrix (R := ℕ) (fun c d => if c = d then 0 else 1)
              (MakeComparableString s) (MakeComparableString t) k)) (k + 1) =
        (List.range' 0 (t.length + 1)).map
          (matrix (R := ℕ) (fun c d => if c = d then 0 else 1)
            (MakeComparableString s) (MakeComparableString t) s.length) := by
  intro d
  induction d with
  | zero =>
      intro k hk
      have hk' : k = s.length := by omega
      subst hk'
      rw [List.drop_length, v4Rows]
  | succ d ihd =>
      intro k hk
      have hk' : k < s.length := by omega
      rw [List.drop_eq_getElem_cons hk']
      simp only [v4Rows]
      rw [← List.getD_eq_getElem s 'A' hk', v4NextRow_matrix s t k]
      exact ihd (k + 1) (by omega)

theorem LevenshteinDistance_v4_eq_v2 (s t : List Char) :
    LevenshteinDistance_v4 s t = LevenshteinDistance_v2 s t := by
  have hrow0 : matrix (R := ℕ) (fun c d => if c = d then 0 else 1)
      (MakeComparableString s) (MakeComparableString t) 0 = fun j => j := by
    funext j
    simp
  have h := v4Rows_matrix s t s.length 0 (by omega)
  rw [List.drop_zero, hrow0] at h
  rw [LevenshteinDistance_v4, List.range_eq_range' (t.length + 1),
    show (List.range' 0 (t.length + 1)) = (List.range' 0 (t.length + 1)).map (fun j => j) by
      rw [List.map_id'], h]
  rw [LevenshteinDistance_v2]
  rw [List.getD_eq_getElem _ 0 (by simp), List.getElem_map]
  congr 1
  simp [List.getElem_range']

end V4Equivalence

/-- C6: the four distance computations agree: the naive recursion, the full
matrix, the two-row rolling computation, and the distance component of
`Diff_v1`. -/
theorem C6_distance_versions_agree (s t : List Char) :
    LevenshteinDistance_v1 s t = LevenshteinDistance_v2 s t ∧
    LevenshteinDistance_v4 s t = LevenshteinDistance_v2 s t ∧
    ∃ al, Diff_v1 s t = some (LevenshteinDistance_v2 s t, al) := by
  refine ⟨LevenshteinDistance_v1_eq_v2 s t, LevenshteinDistance_v4_eq_v2 s t, ?_⟩
  obtain ⟨links, hbt, -, -, -⟩ :=
    backtrace_spec (R := ℕ) (fun c d => if c = d then 0 else 1)
      (MakeComparableString s) (MakeComparableString t)
      ((MakeComparableString s).Length + (MakeComparableString t).Length)
      (MakeComparableString s).Length (MakeComparableString t).Length le_rfl
  exact ⟨⟨links.reverse⟩, by rw [Diff_v1, Diff_v2, hbt]; rfl⟩

section BacktraceCount

/-- Along the integer backtrace of `Diff_v1`, the number of non-Matching links
emitted from cell `(i, j)` equals the matrix value at `(i, j)`: Matching steps
cost 0 and every other step costs exactly 1. -/
theorem backtrace_count (s t : List Char) :
    ∀ N i j, i + j ≤ N →
      ∃ links, backtrace (R := ℕ) (fun c d => if c = d then 0 else 1)
          (MakeComparableString s) (MakeComparableString t) i j = some links ∧
        links.countP (fun lk => !decide (lk.LinkType = .Matching)) =
          matrix (R := ℕ) (fun c d => if c = d then 0 else 1)
            (MakeComparableString s) (MakeComparableString t) i j := by
  intro N
  induction N with
  | zero =>
      intro i j h
      obtain ⟨rfl, rfl⟩ : i = 0 ∧ j = 0 := by omega
      exact ⟨[], rfl, by simp⟩
  | succ N ih =>
      intro i j h
      cases i with
      | zero =>
          cases j with
          | zero => exact ⟨[], rfl, by simp⟩
          | succ j =>
              obtain ⟨links, hbt, hc⟩ := ih 0 j (by omega)
              refine ⟨Link.mk .RightOnly (-1) (j : Int) :: links, ?_, ?_⟩
              · rw [backtrace_zero_succ, hbt]; rfl
              · rw [List.countP_cons, hc]
                simp
      | succ i =>
          cases j with
          | zero =>
              obtain ⟨links, hbt, hc⟩ := ih i 0 (by omega)
              refine ⟨Link.mk .LeftOnly (i : Int) (-1) :: links, ?_, ?_⟩
              · rw [backtrace_succ_zero, hbt]; rfl
              · rw [List.countP_cons, hc]
                simp
          | succ j =>
              by_cases hA :
                  matrix (R := ℕ) (fun c d => if c = d then 0 else 1)
                        (MakeComparableString s) (MakeComparableString t) i j +
                      (fun c d => if c = d then (0 : ℕ) else 1)
                        ((MakeComparableString s).GetItemAt i)
                        ((MakeComparableString t).GetItemAt j) ≤
                    matrix (R := ℕ) (fun c d => if c = d then 0 else 1)
                        (MakeComparableString s) (MakeComparableString t) i (j + 1) + 1 ∧
                  matrix (R := ℕ) (fun c d => if c = d then 0 else 1)
                        (MakeComparableString s) (MakeComparableString t) i j +
                      (fun c d => if c = d then (0 : ℕ) else 1)
                        ((MakeComparableString s).GetItemAt i)
                        ((MakeComparableString t).GetItemAt j) ≤
                    matrix (R := ℕ) (fun c d => if c = d then 0 else 1)
                        (MakeComparableString s) (MakeComparableString t) (i + 1) j + 1
              · obtain ⟨links, hbt, hc⟩ := ih i j (by omega)
                have hmat : matrix (R := ℕ) (fun c d => if c = d then 0 else 1)
                      (MakeComparableString s) (MakeComparableString t) (i + 1) (j + 1) =
                    matrix (R := ℕ) (fun c d => if c = d then 0 else 1)
                        (MakeComparableString s) (MakeComparableString t) i j +
                      (fun c d => if c = d then (0 : ℕ) else 1)
                        ((MakeComparableString s).GetItemAt i)
                        ((MakeComparableString t).GetItemAt j) := by
                  rw [matrix_succ_succ]
                  exact min_3_eq_first hA.1 hA.2
                by_cases h0 : (fun c d => if c = d then (0 : ℕ) else 1)
                    ((MakeComparableString s).GetItemAt i)
                    ((MakeComparableString t).GetItemAt j) = 0
                · refine ⟨Link.mk .Matching (i : Int) (j : Int) :: links, ?_, ?_⟩
                  · rw [backtrace_succ_succ, if_pos hA, if_pos h0, hbt]; rfl
                  · rw [List.countP_cons, hc, hmat, h0]
                    simp
                · refine ⟨Link.mk .Different (i : Int) (j : Int) :: links, ?_, ?_⟩
                  · rw [backtrace_succ_succ, if_pos hA, if_neg h0, hbt]; rfl
                  · have h1 : (fun c d => if c = d then (0 : ℕ) else 1)
                        ((MakeComparableString s).GetItemAt i)
                        ((MakeComparableString t).GetItemAt j) = 1 := by
                      by_cases heq : (MakeComparableString s).GetItemAt i =
                          (MakeComparableString t).GetItemAt j
                      · exact absurd (by simp [heq]) h0
                      · simp [heq]
                    rw [List.countP_cons, hc, hmat, h1]
                    simp
              · by_cases hB :
                    matrix (R := ℕ) (fun c d => if c = d then 0 else 1)
                          (MakeComparableString s) (MakeComparableString t) i (j + 1) + 1 ≤
                      matrix (R := ℕ) (fun c d => if c = d then 0 else 1)
                          (MakeComparableString s) (MakeComparableString t) i j +
                        (fun c d => if c = d then (0 : ℕ) else 1)
                          ((MakeComparableString s).GetItemAt i)
                          ((MakeComparableString t).GetItemAt j) ∧
                    matrix (R := ℕ) (fun c d => if c = d then 0 else 1)
                          (MakeComparableString s) (MakeComparableString t) i (j + 1) + 1 ≤
                      matrix (R := ℕ) (fun c d => if c = d then 0 else 1)
                          (MakeComparableString s) (MakeComparableString t) (i + 1) j + 1
                · obtain ⟨links, hbt, hc⟩ := ih i (j + 1) (by omega)
                  refine ⟨Link.mk .LeftOnly (i : Int) (-1) :: links, ?_, ?_⟩
                  · rw [backtrace_succ_succ, if_neg hA, if_pos hB, hbt]; rfl
                  · rw [List.countP_cons, hc]
                    have hmat : matrix (R := ℕ) (fun c d => if c = d then 0 else 1)
                          (MakeComparableString s) (MakeComparableString t) (i + 1) (j + 1) =
                        matrix (R := ℕ) (fun c d => if c = d then 0 else 1)
                            (MakeComparableString s) (MakeComparableString t) i (j + 1) + 1 := by
                      rw [matrix_succ_succ]
                      exact min_3_eq_second hB.1 hB.2
                    rw [hmat]
                    simp
                · have hC := tiebreak_total _ _ _ hA hB
                  obtain ⟨links, hbt, hc⟩ := ih (i + 1) j (by omega)
                  refine ⟨Link.mk .RightOnly (-1) (j : Int) :: links, ?_, ?_⟩
                  · rw [backtrace_succ_succ, if_neg hA, if_neg hB, if_pos hC, hbt]; rfl
                  · rw [List.countP_cons, hc]
                    have hmat : matrix (R := ℕ) (fun c d => if c = d then 0 else 1)
                          (MakeComparableString s) (MakeComparableString t) (i + 1) (j + 1) =
                        matrix (R := ℕ) (fun c d => if c = d then 0 else 1)
                            (MakeComparableString s) (MakeComparableString t) (i + 1) j + 1 := by
                      rw [matrix_succ_succ]
                      exact min_3_eq_third hC.1 hC.2
                    rw [hmat]
                    simp

end BacktraceCount

/-- C10: the integer distance returned by `Diff_v1` equals the number of links
in the returned alignment whose kind is not Matching, i.e. the
`nonMatchingCount` that `tAlignment.dump` reports. -/
theorem C10_distance_eq_nonmatching_count (s t : List Char) :
    ∃ d al, Diff_v1 s t = some (d, al) ∧
      nonMatchingCount al = d ∧
      nonMatchingCount al =
        al.Links.countP (fun lk => !decide (lk.LinkType = .Matching)) := by
  obtain ⟨links, hbt, hc⟩ := backtrace_count s t
    ((MakeComparableString s).Length + (MakeComparableString t).Length)
    (MakeComparableString s).Length (MakeComparableString t).Length le_rfl
  have hcount : ∀ ls : List Link,
      ls.length - ls.countP (fun lk => decide (lk.LinkType = .Matching)) =
        ls.countP (fun lk => !decide (lk.LinkType = .Matching)) := by
    intro ls
    have h2 := List.length_eq_countP_add_countP
      (fun lk => decide (lk.LinkType = .Matching)) ls
    simp only [decide_not, Bool.decide_coe, decide_eq_true_eq] at h2
    omega
  refine ⟨_, ⟨links.reverse⟩, by rw [Diff_v1, Diff_v2, hbt]; rfl, ?_, ?_⟩
  · rw [nonMatchingCount, matchingCount]
    simp only [Alignment.Links]
    rw [hcount, (links.reverse_perm).countP_eq, hc]
  · rw [nonMatchingCount, matchingCount]
    simp only [Alignment.Links]
    rw [hcount]

/-- C4: for fingerprint sketches built by `DiffHash.Init`, `Similarity` returns
`1` when both sketches are empty, `0` when exactly one is empty, and otherwise
`matchCount / max(|A|, |B|)` for the merge-walk match count; the result always
lies in `[0, 1]`. -/
theorem C4_similarity_cases_and_bounds (x y : List Char) :
    ((DiffHash.Init x).hashes.length = 0 → (DiffHash.Init y).hashes.length = 0 →
      (DiffHash.Init x).Similarity (DiffHash.Init y) = 1) ∧
    ((DiffHash.Init x).hashes.length = 0 → (DiffHash.Init y).hashes.length ≠ 0 →
      (DiffHash.Init x).Similarity (DiffHash.Init y) = 0) ∧
    ((DiffHash.Init x).hashes.length ≠ 0 → (DiffHash.Init y).hashes.length = 0 →
      (DiffHash.Init x).Similarity (DiffHash.Init y) = 0) ∧
    ((DiffHash.Init x).hashes.length ≠ 0 → (DiffHash.Init y).hashes.length ≠ 0 →
      (DiffHash.Init x).Similarity (DiffHash.Init y) =
        (matchCount (DiffHash.Init x).hashes (DiffHash.Init y).hashes : ℚ) /
          (max (DiffHash.Init x).hashes.length (DiffHash.Init y).hashes.length : ℚ)) ∧
    (0 ≤ (DiffHash.Init x).Similarity (DiffHash.Init y) ∧
      (DiffHash.Init x).Similarity (DiffHash.Init y) ≤ 1) := by
  refine ⟨?_, ?_, ?_, ?_, Similarity_nonneg _ _, Similarity_le_one _ _⟩
  · intro h1 h2
    simp only [DiffHash.Similarity]
    rw [if_pos ⟨h1, h2⟩]
  · intro h1 h2
    simp only [DiffHash.Similarity]
    rw [if_neg (by tauto), if_pos (Or.inl h1)]
  · intro h1 h2
    simp only [DiffHash.Similarity]
    rw [if_neg (by tauto), if_pos (Or.inr h2)]
  · intro h1 h2
    have hden : (if (DiffHash.Init x).hashes.length <
          (DiffHash.Init y).hashes.length
        then (DiffHash.Init y).hashes.length
        else (DiffHash.Init x).hashes.length) =
        max (DiffHash.Init x).hashes.length (DiffHash.Init y).hashes.length := by
      rcases lt_or_le (DiffHash.Init x).hashes.length
          (DiffHash.Init y).hashes.length with hlt | hle
      · rw [if_pos hlt, max_eq_right hlt.le]
      · rw [if_neg (not_lt.2 hle), max_eq_left hle]
    simp only [DiffHash.Similarity, gt_iff_lt]
    rw [if_neg (by tauto), if_neg (by tauto), hden, Nat.cast_max]

/-- Witness for C4: the non-empty branch at the concrete sketches of "ab" and
"b"; the emptiness hypotheses are discharged by computation. -/
theorem C4_similarity_cases_and_bounds_witness :
    (DiffHash.Init "ab".toList).Similarity (DiffHash.Init "b".toList) =
      (matchCount (DiffHash.Init "ab".toList).hashes
          (DiffHash.Init "b".toList).hashes : ℚ) /
        (max (DiffHash.Init "ab".toList).hashes.length
          (DiffHash.Init "b".toList).hashes.length : ℚ) :=
  (C4_similarity_cases_and_bounds "ab".toList "b".toList).2.2.2.1
    (by decide) (by decide)

/-- C9 counterexample: the 9-rune line "abcdefghi" fits within `maxWidth = 10`
(no truncation occurs: 9 ≤ 10), yet `Stringify` does not return it unchanged —
it overwrites the trailing runes with dots, because the dot loop starts at
`maxWidth - 3` regardless of whether the line was truncated. -/
theorem C9_counterexample_fits_but_changed :
    "abcdefghi".toList.length ≤ 10 ∧
    (NewTextLine "abcdefghi".toList).Stringify 10 ≠ "abcdefghi".toList ∧
    (NewTextLine "abcdefghi".toList).Stringify 10 = "abcdefg..".toList :=
  ⟨by decide, by decide, by decide⟩

/-- C9 amended: `Stringify maxWidth` always returns at most `maxWidth` runes;
a line whose length is at most `maxWidth - 3` is returned unchanged; when
truncation occurs (length > `maxWidth`, with `maxWidth ≥ 2`) the final rune of
the result is the dot marker; and in general every result rune at a position
from `maxWidth - 3` on (excluding position 0) is the dot marker while every
other result position keeps the original rune of the line — so dots are
written whenever the kept prefix is longer than `maxWidth - 3`, not only when
truncation occurs. -/
theorem C9_amended_stringify (line : TextLine) (maxWidth : ℕ) :
    (line.Stringify maxWidth).length ≤ maxWidth ∧
    (line.Text.length ≤ maxWidth - 3 → line.Stringify maxWidth = line.Text) ∧
    (maxWidth < line.Text.length → 2 ≤ maxWidth →
      (line.Stringify maxWidth).getD (maxWidth - 1) ' ' = '.') ∧
    (∀ i, i < (line.Stringify maxWidth).length → maxWidth - 3 ≤ i → 0 < i →
      (line.Stringify maxWidth).getD i ' ' = '.') ∧
    (∀ i, i < (line.Stringify maxWidth).length →
      ¬(maxWidth - 3 ≤ i ∧ 0 < i) →
      (line.Stringify maxWidth).getD i ' ' = line.Text.getD i ' ') := by
  refine ⟨?_, ?_, ?_, ?_, ?_⟩
  · by_cases htr : line.Text.length > maxWidth
    · simp only [TextLine.Stringify, if_pos htr, List.length_mapIdx,
        List.length_take]
      omega
    · simp only [TextLine.Stringify, if_neg htr, List.length_mapIdx]
      omega
  · intro hfit
    have htr : ¬ line.Text.length > maxWidth := by omega
    simp only [TextLine.Stringify, if_neg htr]
    apply List.ext_getElem (by simp)
    intro i h1 h2
    rw [List.getElem_mapIdx, if_neg]
    intro hcond
    omega
  · intro htr h2w
    have hlen : (line.Text.take maxWidth).length = maxWidth := by
      rw [List.length_take]
      omega
    simp only [TextLine.Stringify, if_pos htr]
    rw [List.getD_eq_getElem _ _ (by simp [List.length_mapIdx, hlen]; omega),
      List.getElem_mapIdx, if_pos ⟨by omega, by omega⟩]
  · intro i hi h3 h0
    simp only [TextLine.Stringify] at hi ⊢
    rw [List.getD_eq_getElem _ _ hi, List.getElem_mapIdx, if_pos ⟨h3, h0⟩]
  · intro i hi hnot
    by_cases htr : line.Text.length > maxWidth
    · simp only [TextLine.Stringify, if_pos htr] at hi ⊢
      have hi' : i < line.Text.length := by
        rw [List.length_mapIdx, List.length_take] at hi
        omega
      rw [List.getD_eq_getElem _ _ hi, List.getElem_mapIdx, if_neg hnot,
        List.getElem_take, List.getD_eq_getElem _ _ hi']
    · simp only [TextLine.Stringify, if_neg htr] at hi ⊢
      have hi' : i < line.Text.length := by
        rw [List.length_mapIdx] at hi
        exact hi
      rw [List.getD_eq_getElem _ _ hi, List.getElem_mapIdx, if_neg hnot,
        List.getD_eq_getElem _ _ hi']

/-- Witness for C9 amended: the 3-rune line "abc" with `maxWidth = 10` is
within `maxWidth - 3` and is returned unchanged, and for the 9-rune line
"abcdefghi" with `maxWidth = 10` the rune at position `7 = maxWidth - 3` of
the result is the dot marker although no truncation occurred. -/
theorem C9_amended_stringify_witness :
    (NewTextLine "abc".toList).Stringify 10 = (NewTextLine "abc".toList).Text ∧
    ((NewTextLine "abcdefghi".toList).Stringify 10).getD 7 ' ' = '.' :=
  ⟨(C9_amended_stringify (NewTextLine "abc".toList) 10).2.1 (by decide),
    (C9_amended_stringify (NewTextLine "abcdefghi".toList) 10).2.2.2.1 7
      (by decide) (by decide) (by decide)⟩

section RealignLemmas

variable {α : Type}

theorem presentLeftIndices_append (l1 l2 : List Link) :
    presentLeftIndices (l1 ++ l2) =
      presentLeftIndices l1 ++ presentLeftIndices l2 := by
  simp [presentLeftIndices]

theorem presentRightIndices_append (l1 l2 : List Link) :
    presentRightIndices (l1 ++ l2) =
      presentRightIndices l1 ++ presentRightIndices l2 := by
  simp [presentRightIndices]

/-- The realigner scan preserves the sequence of present left indices: buffered
links are all RightOnly, and a rewritten Different link contributes its left
index at the same relative position, as a LeftOnly link. -/
theorem realignAux_lefts (Compare : α → α → ℚ) (left right : ComparableSequence α)
    (threshold : ℚ) :
    ∀ links pending, presentLeftIndices pending = [] →
      presentLeftIndices (realignAux Compare left right threshold links pending) =
        presentLeftIndices links := by
  intro links
  induction links with
  | nil =>
      intro pending h
      simpa [realignAux] using h
  | cons link rest ihr =>
      intro pending h
      simp only [realignAux]
      split_ifs with hcond
      · have hpend : presentLeftIndices
            (pending ++ [Link.mk .RightOnly (-1) link.RightIndex]) = [] := by
          rw [presentLeftIndices_append, h]
          simp [presentLeftIndices]
        rw [presentLeftIndices_cons, presentLeftIndices_cons, ihr _ hpend]
      · rw [presentLeftIndices_append, h, presentLeftIndices_cons,
          ihr [] rfl, List.nil_append, presentLeftIndices_cons]

/-- The realigner scan preserves the sequence of present right indices:
pending RightOnly links are flushed, in order, before the next kept link. -/
theorem realignAux_rights (Compare : α → α → ℚ) (left right : ComparableSequence α)
    (threshold : ℚ) :
    ∀ links pending,
      presentRightIndices (realignAux Compare left right threshold links pending) =
        presentRightIndices pending ++ presentRightIndices links := by
  intro links
  induction links with
  | nil =>
      intro pending
      simp [realignAux, presentRightIndices_nil]
  | cons link rest ihr =>
      intro pending
      simp only [realignAux]
      split_ifs with hcond
      · rw [presentRightIndices_cons]
        simp only [if_neg (by norm_num : ¬(0 : Int) ≤ -1)]
        rw [ihr (pending ++ [Link.mk .RightOnly (-1) link.RightIndex]),
          presentRightIndices_append]
        have hsingle : presentRightIndices [Link.mk .RightOnly (-1) link.RightIndex] =
            if 0 ≤ link.RightIndex then [link.RightIndex] else [] := by
          rw [presentRightIndices_cons]
          split_ifs <;> rfl
        rw [hsingle, presentRightIndices_cons]
        split_ifs <;> simp
      · rw [presentRightIndices_append, presentRightIndices_cons,
          presentRightIndices_cons, ihr []]
        simp [presentRightIndices_nil]

end RealignLemmas

/-- C7: for every Alignment whose present left indices are exactly `0..m-1`
and present right indices exactly `0..n-1` (in link order), and for every
threshold, `RealignUsingThreshold` returns an Alignment with exactly the same
present left and right index sequences: it only reshapes link kinds and
ordering, never drops or duplicates a covered index. -/
theorem C7_realign_preserves_cover {α : Type} (Compare : α → α → ℚ)
    (left right : ComparableSequence α) (threshold : ℚ) (al : Alignment)
    (m n : ℕ)
    (hl : presentLeftIndices al.Links = (List.range m).map Int.ofNat)
    (hr : presentRightIndices al.Links = (List.range n).map Int.ofNat) :
    presentLeftIndices
        (al.RealignUsingThreshold Compare left right threshold).Links =
      (List.range m).map Int.ofNat ∧
    presentRightIndices
        (al.RealignUsingThreshold Compare left right threshold).Links =
      (List.range n).map Int.ofNat := by
  constructor
  · simp only [Alignment.RealignUsingThreshold]
    rw [realignAux_lefts Compare left right threshold al.Links [] rfl, hl]
  · simp only [Alignment.RealignUsingThreshold]
    rw [realignAux_rights Compare left right threshold al.Links [],
      presentRightIndices_nil, List.nil_append, hr]

/-- Witness for C7: a concrete one-link alignment over one-rune sequences with
the threshold `2/5` (the 0.4 used by GenerateHtmlDiffPage); the invariant
hypotheses are discharged by computation. -/
theorem C7_realign_preserves_cover_witness :
    presentLeftIndices
        ((Alignment.mk [Link.mk .Matching 0 0]).RealignUsingThreshold
          ComparableRuneCompare (MakeComparableString "a".toList)
          (MakeComparableString "a".toList) (2 / 5)).Links =
      (List.range 1).map Int.ofNat ∧
    presentRightIndices
        ((Alignment.mk [Link.mk .Matching 0 0]).RealignUsingThreshold
          ComparableRuneCompare (MakeComparableString "a".toList)
          (MakeComparableString "a".toList) (2 / 5)).Links =
      (List.range 1).map Int.ofNat :=
  C7_realign_preserves_cover ComparableRuneCompare
    (MakeComparableString "a".toList) (MakeComparableString "a".toList) (2 / 5)
    (Alignment.mk [Link.mk .Matching 0 0]) 1 1 (by decide) (by decide)

end Diffy

